import Mathlib

/-!
# Polaris configuration source (`contrib/polaris/config.go`)

A shallow embedding of the configuration-source adapter and proofs about it.

Modelling conventions

* A Go `string` is a Lean `String`.  The byte-wise scans of the Go standard
  library used here (`filepath.Ext`, `strings.TrimPrefix`) only test for the
  ASCII bytes of a dot and of a slash, which never occur inside a multi-byte
  UTF-8 sequence, so they are run on the list of characters.
* A `[]byte(s)` conversion is `String.toUTF8`.
* A value of an interface or pointer type that the code may leave `nil` is an
  `Option`; a nil slice is `none`.
* A channel is a natural number (its identity, handed out by `make`); the
  nil channel is `none`.  The world records which channels have been closed.
* The package-level variable `eventChanMap` is a field of the explicit
  `World` state, an association list searched with `List.lookup`.
* An operation that can panic or block for ever returns an `Outcome`.
-/

namespace PolarisConfig

/-! ## Go runtime -/

/-- Result of running a statement sequence that may panic or block. -/
inductive Outcome (α : Type) where
  /-- the function returned normally -/
  | returned (a : α)
  /-- an unrecovered run-time panic carrying the runtime's message -/
  | panicked (msg : String)
  /-- the call does not return: it waits on a channel operation that does
  not complete -/
  | blocked
  deriving DecidableEq

/-- Go `error` value: its message. -/
structure GoError where
  msg : String
  deriving DecidableEq

/-- Go `errors.New`. -/
def errorsNew (text : String) : GoError := ⟨text⟩

/-- Unix `os.IsPathSeparator`: the only separator is the slash. -/
def IsPathSeparator (c : Char) : Bool := c == '/'

/-- Loop of Go `filepath.Ext`:
`for i := len(path) - 1; i >= 0 && !os.IsPathSeparator(path[i]); i--`;
the second argument is `i + 1`, so `0` is the loop exit. -/
def ExtLoop (path : List Char) : Nat → List Char
  | 0 => []
  | i + 1 =>
    if IsPathSeparator (path.getD i ' ') then []
    else if path.getD i ' ' == '.' then path.drop i
    else ExtLoop path i

/-- Go `filepath.Ext`: the suffix beginning at the final dot in the final
element of `path`, empty if there is no dot. -/
def Ext (path : String) : String := ⟨ExtLoop path.data path.data.length⟩

/-- Go `strings.TrimPrefix`: `s` without the leading `pfx`, or `s` itself
when it does not start with `pfx`. -/
def TrimPrefix (s pfx : String) : String :=
  if pfx.data.isPrefixOf s.data then ⟨s.data.drop pfx.data.length⟩ else s

/-! ## Types of the client library and of the configuration framework -/

/-- Identity carried by `model.ConfigFileMetadata`
(`GetNamespace`, `GetFileGroup`, `GetFileName`). -/
structure ConfigFileMetadata where
  namespace_ : String
  fileGroup : String
  fileName : String
  deriving DecidableEq

/-- Handle `polaris.ConfigFile`: its metadata getters and `GetContent`. -/
structure ConfigFile where
  namespace_ : String
  fileGroup : String
  fileName : String
  content : String
  deriving DecidableEq

/-- Event `model.ConfigFileChangeEvent`; the metadata is an interface value
and is nil in the zero-valued event. -/
structure ConfigFileChangeEvent where
  ConfigFileMetadata : Option ConfigFileMetadata
  OldValue : String
  NewValue : String
  ChangeType : Nat
  deriving DecidableEq

/-- Zero value of `model.ConfigFileChangeEvent`, what a receive on a closed
channel yields. -/
def zeroEvent : ConfigFileChangeEvent := ⟨none, "", "", 0⟩

/-- Entry `config.KeyValue` of the configuration framework. -/
structure KeyValue where
  Key : String
  Value : ByteArray
  Format : String

/-- Client `polaris.ConfigAPI`: the one method the adapter calls, returning
the Go pair `(ConfigFile, error)`. -/
structure ConfigAPI where
  GetConfigFile : String → String → String → Option ConfigFile × Option GoError

/-! ## Options and construction (lines 16-75) -/

/-- Struct `configOptions`; `configFile` is nil until `Load` succeeds. -/
structure configOptions where
  namespace_ : String
  fileGroup : String
  fileName : String
  configFile : Option ConfigFile
  deriving DecidableEq

/-- An option is a function run on the options record. -/
abbrev ConfigOption := configOptions → configOptions

/-- Option `WithConfigNamespace`. -/
def WithConfigNamespace (namespace_ : String) : ConfigOption :=
  fun o => { o with namespace_ := namespace_ }

/-- Option `WithFileGroup`. -/
def WithFileGroup (fileGroup : String) : ConfigOption :=
  fun o => { o with fileGroup := fileGroup }

/-- Option `WithFileName`. -/
def WithFileName (fileName : String) : ConfigOption :=
  fun o => { o with fileName := fileName }

/-- Struct `source`; `options` is a pointer, its target is held in place. -/
structure source where
  client : ConfigAPI
  options : configOptions

/-- Receiver of `Config`: the field `config` is the client. -/
structure Polaris where
  config : ConfigAPI

/-- Loop `for _, opt := range opts { opt(options) }`. -/
def applyOpts (options : configOptions) : List ConfigOption → configOptions
  | [] => options
  | opt :: opts => applyOpts (opt options) opts

/-- Method `(p *Polaris) Config(opts ...ConfigOption) (config.Source, error)`. -/
def Polaris.Config (p : Polaris) (opts : List ConfigOption) : Option source × Option GoError :=
  let options : configOptions :=
    { namespace_ := "default", fileGroup := "", fileName := "", configFile := none }
  let options := applyOpts options opts
  if options.fileGroup == "" then
    (none, some (errorsNew "fileGroup invalid"))
  else if options.fileName == "" then
    (none, some (errorsNew "fileName invalid"))
  else
    (some { client := p.config, options := options }, none)

/-! ## Load (lines 77-100) -/

/-- What a call of `Load` leaves behind: the outcome with the returned pair,
the receiver after the call, and the lines written to standard output. -/
structure LoadResult where
  out : Outcome (Option (List KeyValue) × Option GoError)
  s : source
  stdout : List String

/-- Method `(s *source) Load() ([]*config.KeyValue, error)`. -/
def source.Load (s : source) : LoadResult :=
  match s.client.GetConfigFile s.options.namespace_ s.options.fileGroup s.options.fileName with
  | (_, some err) =>
    { out := .returned (none, some err), s := s,
      stdout := ["fail to get config. " ++ err.msg] }
  | (none, none) =>
    { out := .panicked "invalid memory address or nil pointer dereference", s := s, stdout := [] }
  | (some configFile, none) =>
    let content := configFile.content
    let k := s.options.fileName
    let s1 : source := { s with options := { s.options with configFile := some configFile } }
    { out := .returned
        (some [{ Key := k, Value := content.toUTF8, Format := TrimPrefix (Ext k) "." }], none),
      s := s1, stdout := [] }

/-! ## Event registry (lines 107-134) -/

/-- Struct `eventChan`, stored by value in the registry. -/
structure eventChan where
  closed : Bool
  event : Option Nat
  deriving DecidableEq

/-- Zero value of `eventChan`, what indexing a Go map with a missing key
yields: flag false, nil channel. -/
def eventChan.zero : eventChan := ⟨false, none⟩

/-- Struct `ConfigWatcher`.  Its handle is never nil: `newConfigWatcher`
calls a method on the handle before it builds the watcher. -/
structure ConfigWatcher where
  configFile : ConfigFile
  fullPath : String
  deriving DecidableEq

/-- Process-wide state the package works on. -/
structure World where
  /-- the package variable `eventChanMap` -/
  eventChanMap : List (String × eventChan)
  /-- number of channels handed out by `make` so far -/
  nextChan : Nat
  /-- channels on which `close` has succeeded -/
  closedChans : List Nat
  /-- handles on which `receive` was registered by `AddChangeListener` -/
  listeners : List ConfigFile
  /-- what `log.Error` was called with -/
  errorLog : List String
  deriving DecidableEq

/-- State at program start: `eventChanMap = make(map[string]eventChan)`. -/
def World.init : World := ⟨[], 0, [], [], []⟩

/-- Go map indexing `eventChanMap[key]`. -/
def World.index (W : World) (key : String) : eventChan :=
  (W.eventChanMap.lookup key).getD eventChan.zero

/-- Whether channel `c` has been closed. -/
def World.isClosed (W : World) (c : Nat) : Bool := decide (c ∈ W.closedChans)

/-- Function `getFullPath`: `fmt.Sprintf("%s/%s/%s", namespace, fileGroup, fileName)`. -/
def getFullPath (namespace_ : String) (fileGroup : String) (fileName : String) : String :=
  namespace_ ++ "/" ++ fileGroup ++ "/" ++ fileName

/-- How a call of `receive` ends. -/
inductive ReceiveOutcome where
  /-- the metadata is nil: the method call of line 125 panics before the
  deferred recover is installed -/
  | panickedNilMeta
  /-- the flag read from the map was set: line 132 is not run -/
  | skipped
  /-- line 132 sends on the nil channel, which blocks for ever -/
  | blockedOnNil
  /-- line 132 sends on closed channel `c`: the runtime panics, the deferred
  function recovers and logs, and `receive` returns -/
  | recovered (c : Nat)
  /-- line 132 sends on open channel `c`: the send completes when a receiver
  on `c` takes the event -/
  | sending (c : Nat)
  deriving DecidableEq

/-- Channel operand of the send statement executed by the call, if one was. -/
def ReceiveOutcome.sendOperand : ReceiveOutcome → Option (Option Nat)
  | .panickedNilMeta => none
  | .skipped => none
  | .blockedOnNil => some none
  | .recovered c => some (some c)
  | .sending c => some (some c)

/-- Function `receive(event model.ConfigFileChangeEvent)`. -/
def receive (event : ConfigFileChangeEvent) (W : World) : ReceiveOutcome × World :=
  match event.ConfigFileMetadata with
  | none => (.panickedNilMeta, W)
  | some meta =>
    let ec := W.index (getFullPath meta.namespace_ meta.fileGroup meta.fileName)
    if !ec.closed then
      match ec.event with
      | none => (.blockedOnNil, W)
      | some c =>
        if W.isClosed c then
          (.recovered c, { W with errorLog := W.errorLog ++ ["send on closed channel"] })
        else (.sending c, W)
    else (.skipped, W)

/-! ## Watcher (lines 102-172) -/

/-- Function `newConfigWatcher(configFile polaris.ConfigFile) *ConfigWatcher`. -/
def newConfigWatcher (configFile : Option ConfigFile) (W : World) :
    Outcome ConfigWatcher × World :=
  match configFile with
  | none => (.panicked "invalid memory address or nil pointer dereference", W)
  | some cf =>
    let W1 : World := { W with listeners := W.listeners ++ [cf] }
    let fullPath := getFullPath cf.namespace_ cf.fileGroup cf.fileName
    let W2 : World :=
      match W1.eventChanMap.lookup fullPath with
      | some _ => W1
      | none =>
        { W1 with
          eventChanMap := (fullPath, { closed := false, event := some W1.nextChan })
            :: W1.eventChanMap,
          nextChan := W1.nextChan + 1 }
    (.returned { configFile := cf, fullPath := fullPath }, W2)

/-- Method `(s *source) Watch() (config.Watcher, error)`. -/
def source.Watch (s : source) (W : World) :
    Outcome (Option ConfigWatcher × Option GoError) × World :=
  match newConfigWatcher s.options.configFile W with
  | (.returned w, W1) => (.returned (some w, none), W1)
  | (.panicked msg, W1) => (.panicked msg, W1)
  | (.blocked, W1) => (.blocked, W1)

/-- Channel `ec.event` that `Next` receives from (line 154). -/
def ConfigWatcher.recvChan (w : ConfigWatcher) (W : World) : Option Nat :=
  (W.index w.fullPath).event

/-- Receive statement `<-ch`: `none` when it never completes.  `sent` is the
event a sender hands over on the channel while the receiver waits, if any. -/
def chanRecv (W : World) (ch : Option Nat) (sent : Option ConfigFileChangeEvent) :
    Option ConfigFileChangeEvent :=
  match ch with
  | none => none
  | some c => if W.isClosed c then some zeroEvent else sent

/-- Method `(w *ConfigWatcher) Next() ([]*config.KeyValue, error)`. -/
def ConfigWatcher.Next (w : ConfigWatcher) (W : World) (sent : Option ConfigFileChangeEvent) :
    Outcome (Option (List KeyValue) × Option GoError) :=
  match chanRecv W (w.recvChan W) sent with
  | none => .blocked
  | some event =>
    .returned
      (some [{ Key := w.configFile.fileName,
               Value := event.NewValue.toUTF8,
               Format := TrimPrefix (Ext w.configFile.fileName) "." }], none)

/-- Builtin `close(ch)`. -/
def closeChan (ch : Option Nat) (W : World) : Outcome Unit × World :=
  match ch with
  | none => (.panicked "close of nil channel", W)
  | some c =>
    if W.isClosed c then (.panicked "close of closed channel", W)
    else (.returned (), { W with closedChans := c :: W.closedChans })

/-- Method `(w *ConfigWatcher) Stop() error`.  The map holds `eventChan`
values, so `ec` is a copy: line 168 sets the flag of the copy and nothing is
stored back into `eventChanMap`. -/
def ConfigWatcher.Stop (w : ConfigWatcher) (W : World) : Outcome (Option GoError) × World :=
  let ec := W.index w.fullPath
  if !ec.closed then
    let ec : eventChan := { ec with closed := true }
    match closeChan ec.event W with
    | (.returned _, W1) => (.returned none, W1)
    | (.panicked msg, W1) => (.panicked msg, W1)
    | (.blocked, W1) => (.blocked, W1)
  else (.returned none, W)

/-! ## Histories -/

/-- One call into the package. -/
inductive Op where
  | watch (configFile : Option ConfigFile)
  | stop (w : ConfigWatcher)
  | event (e : ConfigFileChangeEvent)
  deriving DecidableEq

/-- State after one call. -/
def step (W : World) : Op → World
  | .watch configFile => (newConfigWatcher configFile W).2
  | .stop w => (w.Stop W).2
  | .event e => (receive e W).2

/-- State after a sequence of calls. -/
def run (W : World) (ops : List Op) : World := ops.foldl step W

/-! ## Invariant of the registry -/

/-- Every entry of the registry has its flag unset and an allocated channel,
and different keys hold different channels. -/
def World.Inv (W : World) : Prop :=
  (∀ k ec, W.eventChanMap.lookup k = some ec →
    ec.closed = false ∧ ∃ c, ec.event = some c ∧ c < W.nextChan) ∧
  (∀ k1 k2 ec1 ec2, W.eventChanMap.lookup k1 = some ec1 →
    W.eventChanMap.lookup k2 = some ec2 → ec1.event = ec2.event → k1 = k2)

/-! ## Reading of the format sentence -/

/-- Text after the last occurrence of `c` in `l`, when `c` occurs in `l`. -/
def afterLast (c : Char) : List Char → Option (List Char)
  | [] => none
  | x :: xs =>
    match afterLast c xs with
    | some r => some r
    | none => if x = c then some xs else none

/-- Format as the sentence words it: the text after the last dot of the
name, the empty string when the name has no dot. -/
def textAfterLastDot (name : String) : String := ⟨(afterLast '.' name.data).getD []⟩

/-- Final path element of a name: the text after its last slash, the whole
name when it has no slash. -/
def finalElement (name : String) : String := ⟨(afterLast '/' name.data).getD name.data⟩

/-- Options the construction sentence speaks of: the defaults (namespace
"default", empty file group, empty file name) with `opts` applied in order. -/
def appliedOptions (opts : List ConfigOption) : configOptions :=
  opts.foldl (fun (acc : configOptions) (opt : ConfigOption) => opt acc)
    { namespace_ := "default", fileGroup := "", fileName := "", configFile := none }

/-! ## Concrete data used in the examples -/

/-- Handle of `default/app/config.yaml`. -/
def exampleFile : ConfigFile := ⟨"default", "app", "config.yaml", "a: 1"⟩

/-- Watcher that `newConfigWatcher` returns for `exampleFile`. -/
def exampleWatcher : ConfigWatcher := ⟨exampleFile, "default/app/config.yaml"⟩

/-- Registry after `newConfigWatcher(exampleFile)` on the initial state. -/
def exampleWorld : World :=
  ⟨[("default/app/config.yaml", ⟨false, some 0⟩)], 1, [], [exampleFile], []⟩

/-- Change event for `default/app/config.yaml` with new content `a: 2`. -/
def exampleEvent : ConfigFileChangeEvent :=
  ⟨some ⟨"default", "app", "config.yaml"⟩, "a: 1", "a: 2", 1⟩

/-- Handle whose namespace contains a slash: identifier (`a/b`, `c`, `d`). -/
def slashFileA : ConfigFile := ⟨"a/b", "c", "d", "content of A"⟩

/-- Handle whose group contains a slash: identifier (`a`, `b/c`, `d`). -/
def slashFileB : ConfigFile := ⟨"a", "b/c", "d", "content of B"⟩

/-- Change event of the file (`a/b`, `c`, `d`). -/
def slashEventA : ConfigFileChangeEvent := ⟨some ⟨"a/b", "c", "d"⟩, "content of A", "new A", 1⟩

/-- Handle of `default/app/other.json`. -/
def otherFile : ConfigFile := ⟨"default", "app", "other.json", "1"⟩

/-- Client that serves every file, with content `a: 1`. -/
def anyFileClient : ConfigAPI := ⟨fun ns g f => (some ⟨ns, g, f, "a: 1"⟩, none)⟩

/-- Client that knows one file, `prod/app/config.yaml` with content `a: 1`. -/
def exampleClient : ConfigAPI :=
  ⟨fun ns g f =>
    if ns = "prod" ∧ g = "app" ∧ f = "config.yaml" then
      (some ⟨"prod", "app", "config.yaml", "a: 1"⟩, none)
    else (none, some (errorsNew "config file not found"))⟩

/-! ## Construction -/

theorem applyOpts_eq_foldl (opts : List ConfigOption) (o : configOptions) :
    applyOpts o opts = opts.foldl (fun acc opt => opt acc) o := by
  induction opts generalizing o with
  | nil => rfl
  | cons opt rest ih => simpa [applyOpts] using ih (opt o)

/-- C3. `Config` applies the options in order to the defaults (namespace
"default", empty group, empty name); when the resulting file group or file
name is empty it returns no Source and a non-nil error, whatever the
namespace; otherwise it returns a Source holding the client and exactly the
resulting options, with a nil error. -/
theorem Config_checks_group_and_name (p : Polaris) (opts : List ConfigOption) :
    ((appliedOptions opts).fileGroup = "" ∨ (appliedOptions opts).fileName = "" →
        (p.Config opts).1 = none ∧ ∃ e, (p.Config opts).2 = some e) ∧
    (¬ ((appliedOptions opts).fileGroup = "" ∨ (appliedOptions opts).fileName = "") →
        p.Config opts = (some ⟨p.config, appliedOptions opts⟩, none)) := by
  simp only [Polaris.Config, applyOpts_eq_foldl, appliedOptions]
  generalize opts.foldl (fun (acc : configOptions) (opt : ConfigOption) => opt acc)
    { namespace_ := "default", fileGroup := "", fileName := "", configFile := none } = o
  by_cases hg : o.fileGroup = ""
  · simp [hg]
  · by_cases hn : o.fileName = ""
    · simp [hg, hn]
    · simp [hg, hn]

theorem Config_checks_group_and_name_witness :
    ((Polaris.Config ⟨exampleClient⟩ [WithConfigNamespace "prod", WithFileName "config.yaml"]).1
        = none ∧
      ∃ e, (Polaris.Config ⟨exampleClient⟩
        [WithConfigNamespace "prod", WithFileName "config.yaml"]).2 = some e) ∧
    Polaris.Config ⟨exampleClient⟩
        [WithConfigNamespace "prod", WithFileGroup "app", WithFileName "config.yaml"] =
      (some ⟨exampleClient, ⟨"prod", "app", "config.yaml", none⟩⟩, none) :=
  ⟨(Config_checks_group_and_name ⟨exampleClient⟩
      [WithConfigNamespace "prod", WithFileName "config.yaml"]).1 (Or.inl (by decide)),
   (Config_checks_group_and_name ⟨exampleClient⟩
      [WithConfigNamespace "prod", WithFileGroup "app", WithFileName "config.yaml"]).2
      (by decide)⟩

/-! ## Load -/

/-- C5. When `GetConfigFile(namespace, group, file name)` succeeds with
handle `h`, `Load` returns a nil error and exactly one entry whose Key is the
configured file name, whose Value is the bytes of the content of `h` and whose
Format is the extension of the name without its dot; afterwards the Source
caches `h`, its client and other options are unchanged, and `Watch` builds
its watcher on `h`. -/
theorem Load_success (s : source) (h : ConfigFile)
    (hget : s.client.GetConfigFile s.options.namespace_ s.options.fileGroup
      s.options.fileName = (some h, none)) :
    s.Load.out = .returned
        (some [⟨s.options.fileName, h.content.toUTF8,
          TrimPrefix (Ext s.options.fileName) "."⟩], none) ∧
    s.Load.s = ⟨s.client, ⟨s.options.namespace_, s.options.fileGroup, s.options.fileName,
      some h⟩⟩ ∧
    ∀ W, ∃ w W1, s.Load.s.Watch W = (.returned (some w, none), W1) ∧ w.configFile = h := by
  refine ⟨?_, ?_, ?_⟩
  · simp [source.Load, hget]
  · simp [source.Load, hget]
  · intro W
    simp [source.Load, hget, source.Watch, newConfigWatcher]

theorem Load_success_witness :
    (source.Load ⟨exampleClient, ⟨"prod", "app", "config.yaml", none⟩⟩).out =
      .returned (some [⟨"config.yaml", "a: 1".toUTF8, "yaml"⟩], none) ∧
    (source.Load ⟨exampleClient, ⟨"prod", "app", "config.yaml", none⟩⟩).s =
      ⟨exampleClient, ⟨"prod", "app", "config.yaml",
        some ⟨"prod", "app", "config.yaml", "a: 1"⟩⟩⟩ :=
  have h := Load_success ⟨exampleClient, ⟨"prod", "app", "config.yaml", none⟩⟩
    ⟨"prod", "app", "config.yaml", "a: 1"⟩ (by decide)
  ⟨h.1, h.2.1⟩

/-- C8. When `GetConfigFile` fails with error `e`, `Load` returns a nil list
together with `e` itself, and the Source (cached handle, client and options)
is as it was before the call. -/
theorem Load_failure (s : source) (r : Option ConfigFile) (e : GoError)
    (hget : s.client.GetConfigFile s.options.namespace_ s.options.fileGroup
      s.options.fileName = (r, some e)) :
    s.Load.out = .returned (none, some e) ∧ s.Load.s = s := by
  simp [source.Load, hget]

theorem Load_failure_witness :
    (source.Load ⟨exampleClient, ⟨"default", "app", "config.yaml", some exampleFile⟩⟩).out =
      .returned (none, some ⟨"config file not found"⟩) ∧
    (source.Load ⟨exampleClient, ⟨"default", "app", "config.yaml", some exampleFile⟩⟩).s =
      ⟨exampleClient, ⟨"default", "app", "config.yaml", some exampleFile⟩⟩ :=
  Load_failure ⟨exampleClient, ⟨"default", "app", "config.yaml", some exampleFile⟩⟩ none
    ⟨"config file not found"⟩ (by decide)

/-! ## Effect of each call on the world -/

theorem lookup_cons_ite (k key : String) (v : eventChan) (m : List (String × eventChan)) :
    ((key, v) :: m).lookup k = if k = key then some v else m.lookup k := by
  by_cases h : k = key
  · simp [h]
  · simp [List.lookup_cons, h, beq_false_of_ne h]

theorem receive_world (e : ConfigFileChangeEvent) (W : World) :
    (receive e W).2.eventChanMap = W.eventChanMap ∧
    (receive e W).2.nextChan = W.nextChan ∧
    (receive e W).2.closedChans = W.closedChans := by
  unfold receive
  cases e.ConfigFileMetadata with
  | none => exact ⟨rfl, rfl, rfl⟩
  | some meta =>
    dsimp only
    generalize W.index (getFullPath meta.namespace_ meta.fileGroup meta.fileName) = ec
    rcases ec with ⟨cl, ev⟩
    cases cl <;> cases ev <;> simp
    split <;> simp

theorem Stop_world (w : ConfigWatcher) (W : World) :
    (w.Stop W).2 = W ∨
    ∃ c, (W.index w.fullPath).event = some c ∧
      (w.Stop W).2 = { W with closedChans := c :: W.closedChans } := by
  unfold ConfigWatcher.Stop closeChan
  generalize W.index w.fullPath = ec
  rcases ec with ⟨cl, ev⟩
  cases cl with
  | true => simp
  | false =>
    cases ev with
    | none => simp
    | some c =>
      by_cases hc : W.isClosed c = true
      · simp [hc]
      · simp [hc]

theorem Stop_eventChanMap (w : ConfigWatcher) (W : World) :
    (w.Stop W).2.eventChanMap = W.eventChanMap := by
  rcases Stop_world w W with h | ⟨c, _, h⟩ <;> rw [h]

theorem Stop_nextChan (w : ConfigWatcher) (W : World) :
    (w.Stop W).2.nextChan = W.nextChan := by
  rcases Stop_world w W with h | ⟨c, _, h⟩ <;> rw [h]

theorem newConfigWatcher_lookup (cf : ConfigFile) (W : World) (k : String) (ec : eventChan)
    (h : W.eventChanMap.lookup k = some ec) :
    (newConfigWatcher (some cf) W).2.eventChanMap.lookup k = some ec := by
  unfold newConfigWatcher
  cases hl : W.eventChanMap.lookup (getFullPath cf.namespace_ cf.fileGroup cf.fileName) with
  | some _ => simpa [hl] using h
  | none =>
    have hne : k ≠ getFullPath cf.namespace_ cf.fileGroup cf.fileName := by
      intro heq
      rw [heq, hl] at h
      exact Option.noConfusion h
    simp [hl, lookup_cons_ite, hne, h]

theorem step_lookup (W : World) (op : Op) (k : String) (ec : eventChan)
    (h : W.eventChanMap.lookup k = some ec) :
    (step W op).eventChanMap.lookup k = some ec := by
  cases op with
  | watch configFile =>
    cases configFile with
    | none => simpa [step, newConfigWatcher] using h
    | some cf => exact newConfigWatcher_lookup cf W k ec h
  | stop w => simpa [step, Stop_eventChanMap] using h
  | event e => simpa [step, (receive_world e W).1] using h

theorem step_closed (W : World) (op : Op) (c : Nat) (h : c ∈ W.closedChans) :
    c ∈ (step W op).closedChans := by
  cases op with
  | watch configFile =>
    cases configFile with
    | none => simpa [step, newConfigWatcher] using h
    | some cf =>
      simp only [step, newConfigWatcher]
      split <;> simpa using h
  | stop w =>
    simp only [step]
    rcases Stop_world w W with h1 | ⟨d, _, h1⟩
    · rw [h1]; exact h
    · rw [h1]; exact List.mem_cons_of_mem _ h
  | event e => simpa [step, (receive_world e W).2.2] using h

theorem run_lookup (ops : List Op) (W : World) (k : String) (ec : eventChan)
    (h : W.eventChanMap.lookup k = some ec) :
    (run W ops).eventChanMap.lookup k = some ec := by
  induction ops generalizing W with
  | nil => exact h
  | cons op rest ih => exact ih (step W op) (step_lookup W op k ec h)

theorem run_closed (ops : List Op) (W : World) (c : Nat) (h : c ∈ W.closedChans) :
    c ∈ (run W ops).closedChans := by
  induction ops generalizing W with
  | nil => exact h
  | cons op rest ih => exact ih (step W op) (step_closed W op c h)

/-! ## Registry invariant of reachable states -/

theorem Inv_init : World.init.Inv := by
  constructor
  · intro k ec h
    simp [World.init] at h
  · intro k1 k2 ec1 ec2 h
    simp [World.init] at h

theorem Inv_of_same (W W1 : World) (hm : W1.eventChanMap = W.eventChanMap)
    (hn : W1.nextChan = W.nextChan) (h : W.Inv) : W1.Inv := by
  unfold World.Inv
  rw [hm, hn]
  exact h

theorem Inv_newConfigWatcher (cf : ConfigFile) (W : World) (h : W.Inv) :
    (newConfigWatcher (some cf) W).2.Inv := by
  unfold newConfigWatcher
  cases hl : W.eventChanMap.lookup (getFullPath cf.namespace_ cf.fileGroup cf.fileName) with
  | some _ =>
    simp only [hl]
    exact Inv_of_same W _ rfl rfl h
  | none =>
    simp only [hl]
    constructor
    · intro k ec hk
      rw [lookup_cons_ite] at hk
      split at hk
      · cases hk
        exact ⟨rfl, W.nextChan, rfl, Nat.lt_succ_self _⟩
      · obtain ⟨h1, c, h2, h3⟩ := h.1 k ec hk
        exact ⟨h1, c, h2, Nat.lt_succ_of_lt h3⟩
    · intro k1 k2 ec1 ec2 hk1 hk2 heq
      rw [lookup_cons_ite] at hk1 hk2
      by_cases e1 : k1 = getFullPath cf.namespace_ cf.fileGroup cf.fileName
      · by_cases e2 : k2 = getFullPath cf.namespace_ cf.fileGroup cf.fileName
        · rw [e1, e2]
        · rw [if_pos e1] at hk1
          rw [if_neg e2] at hk2
          cases hk1
          obtain ⟨_, c, h2, h3⟩ := h.1 k2 ec2 hk2
          rw [h2] at heq
          simp at heq
          omega
      · rw [if_neg e1] at hk1
        by_cases e2 : k2 = getFullPath cf.namespace_ cf.fileGroup cf.fileName
        · rw [if_pos e2] at hk2
          cases hk2
          obtain ⟨_, c, h2, h3⟩ := h.1 k1 ec1 hk1
          rw [h2] at heq
          simp at heq
          omega
        · rw [if_neg e2] at hk2
          exact h.2 k1 k2 ec1 ec2 hk1 hk2 heq

theorem Inv_step (W : World) (op : Op) (h : W.Inv) : (step W op).Inv := by
  cases op with
  | watch configFile =>
    cases configFile with
    | none => simpa [step, newConfigWatcher] using h
    | some cf => exact Inv_newConfigWatcher cf W h
  | stop w => exact Inv_of_same W _ (Stop_eventChanMap w W) (Stop_nextChan w W) h
  | event e => exact Inv_of_same W _ (receive_world e W).1 (receive_world e W).2.1 h

theorem Inv_run (ops : List Op) (W : World) (h : W.Inv) : (run W ops).Inv := by
  induction ops generalizing W with
  | nil => exact h
  | cons op rest ih => exact ih (step W op) (Inv_step W op h)

/-! ## Stop -/

theorem newConfigWatcher_returns (cf : ConfigFile) (W : World) :
    (newConfigWatcher (some cf) W).1 =
      .returned ⟨cf, getFullPath cf.namespace_ cf.fileGroup cf.fileName⟩ := by
  simp [newConfigWatcher]

theorem newConfigWatcher_entry (cf : ConfigFile) (W : World) :
    ∃ ec, (newConfigWatcher (some cf) W).2.eventChanMap.lookup
      (getFullPath cf.namespace_ cf.fileGroup cf.fileName) = some ec := by
  unfold newConfigWatcher
  cases hl : W.eventChanMap.lookup (getFullPath cf.namespace_ cf.fileGroup cf.fileName) with
  | some ec => exact ⟨ec, by simp [hl]⟩
  | none => exact ⟨⟨false, some W.nextChan⟩, by simp [hl]⟩

theorem index_of_lookup (W : World) (k : String) (ec : eventChan)
    (h : W.eventChanMap.lookup k = some ec) : W.index k = ec := by
  simp [World.index, h]

theorem Stop_open_entry (w : ConfigWatcher) (W : World) (c : Nat)
    (hl : W.eventChanMap.lookup w.fullPath = some ⟨false, some c⟩)
    (hc : c ∉ W.closedChans) :
    w.Stop W = (.returned none, { W with closedChans := c :: W.closedChans }) := by
  simp [ConfigWatcher.Stop, closeChan, index_of_lookup W _ _ hl, World.isClosed, hc]

theorem Stop_closed_chan (w : ConfigWatcher) (W : World) (c : Nat)
    (hl : W.eventChanMap.lookup w.fullPath = some ⟨false, some c⟩)
    (hc : c ∈ W.closedChans) :
    w.Stop W = (.panicked "close of closed channel", W) := by
  simp [ConfigWatcher.Stop, closeChan, index_of_lookup W _ _ hl, World.isClosed, hc]

theorem Stop_closes (w : ConfigWatcher) (W : World) (c : Nat)
    (hl : W.eventChanMap.lookup w.fullPath = some ⟨false, some c⟩) :
    c ∈ (w.Stop W).2.closedChans := by
  by_cases hc : c ∈ W.closedChans
  · rw [Stop_closed_chan w W c hl hc]
    exact hc
  · rw [Stop_open_entry w W c hl hc]
    exact List.mem_cons_self _ _

theorem Inv_entry (W : World) (h : W.Inv) (k : String) (ec : eventChan)
    (hl : W.eventChanMap.lookup k = some ec) : ∃ c, ec = ⟨false, some c⟩ := by
  obtain ⟨h1, c, h2, _⟩ := h.1 k ec hl
  rcases ec with ⟨cl, ev⟩
  simp only at h1 h2
  exact ⟨c, by rw [h1, h2]⟩

/-- C1 (what the code does). A watcher returned by `newConfigWatcher`, in
any state the package can reach, makes the second of two consecutive `Stop`
calls panic with "close of closed channel": the flag set by the first call
lives in a copy of the registry entry, so the second call closes again. -/
theorem Stop_twice_panics (ops : List Op) (cf : ConfigFile) (w : ConfigWatcher) (W1 : World)
    (hnew : newConfigWatcher (some cf) (run World.init ops) = (.returned w, W1)) :
    (w.Stop (w.Stop W1).2).1 = .panicked "close of closed channel" := by
  have hw : w = ⟨cf, getFullPath cf.namespace_ cf.fileGroup cf.fileName⟩ := by
    have h := newConfigWatcher_returns cf (run World.init ops)
    rw [hnew] at h
    exact Outcome.returned.inj h
  have hW1 : W1 = (newConfigWatcher (some cf) (run World.init ops)).2 := by rw [hnew]
  obtain ⟨ec, hl⟩ := newConfigWatcher_entry cf (run World.init ops)
  rw [← hW1] at hl
  have hinv : W1.Inv := by
    rw [hW1]
    exact Inv_newConfigWatcher cf _ (Inv_run ops _ Inv_init)
  obtain ⟨c, hec⟩ := Inv_entry W1 hinv _ ec hl
  have hl1 : W1.eventChanMap.lookup w.fullPath = some ⟨false, some c⟩ := by
    rw [hw, ← hec]
    exact hl
  have hl2 : (w.Stop W1).2.eventChanMap.lookup w.fullPath = some ⟨false, some c⟩ := by
    rw [Stop_eventChanMap]
    exact hl1
  rw [Stop_closed_chan w _ c hl2 (Stop_closes w W1 c hl1)]

theorem Stop_twice_panics_witness :
    newConfigWatcher (some exampleFile) World.init = (.returned exampleWatcher, exampleWorld) ∧
    exampleWatcher.Stop exampleWorld =
      (.returned none, { exampleWorld with closedChans := [0] }) ∧
    (exampleWatcher.Stop (exampleWatcher.Stop exampleWorld).2).1 =
      .panicked "close of closed channel" :=
  ⟨by decide, by decide, Stop_twice_panics [] exampleFile exampleWatcher exampleWorld (by decide)⟩

/-- C9 (what the code does). `Stop` never writes to the registry: an entry
that is open before the call is stored unchanged, flag still unset, after
it. -/
theorem Stop_keeps_flag_unset (w : ConfigWatcher) (W : World) (ec : eventChan)
    (hl : W.eventChanMap.lookup w.fullPath = some ec) (hopen : ec.closed = false) :
    (w.Stop W).2.eventChanMap.lookup w.fullPath = some ec ∧
    ((w.Stop W).2.index w.fullPath).closed = false := by
  have h : (w.Stop W).2.eventChanMap.lookup w.fullPath = some ec := by
    rw [Stop_eventChanMap]
    exact hl
  exact ⟨h, by rw [index_of_lookup _ _ _ h]; exact hopen⟩

theorem Stop_keeps_flag_unset_witness :
    (exampleWatcher.Stop exampleWorld).2.eventChanMap.lookup "default/app/config.yaml" =
      some ⟨false, some 0⟩ ∧
    ((exampleWatcher.Stop exampleWorld).2.index "default/app/config.yaml").closed = false ∧
    (receive exampleEvent (exampleWatcher.Stop exampleWorld).2).1 = .recovered 0 :=
  ⟨(Stop_keeps_flag_unset exampleWatcher exampleWorld ⟨false, some 0⟩ (by decide) rfl).1,
   (Stop_keeps_flag_unset exampleWatcher exampleWorld ⟨false, some 0⟩ (by decide) rfl).2,
   by decide⟩

/-! ## receive -/

/-- C10 (what the code does). For an event whose identifier has no registry
entry, `receive` reads the zero entry (flag unset, nil channel), runs the
send on the nil channel and blocks for ever. -/
theorem receive_without_entry_blocks (e : ConfigFileChangeEvent) (meta : ConfigFileMetadata)
    (W : World) (hm : e.ConfigFileMetadata = some meta)
    (hl : W.eventChanMap.lookup (getFullPath meta.namespace_ meta.fileGroup meta.fileName)
      = none) :
    receive e W = (.blockedOnNil, W) ∧ (receive e W).1.sendOperand = some none := by
  have h : receive e W = (.blockedOnNil, W) := by
    simp [receive, hm, World.index, hl, eventChan.zero]
  exact ⟨h, by rw [h]; rfl⟩

theorem receive_without_entry_blocks_witness :
    World.init.eventChanMap.lookup "default/app/config.yaml" = none ∧
    receive exampleEvent World.init = (.blockedOnNil, World.init) :=
  ⟨by decide,
   (receive_without_entry_blocks exampleEvent ⟨"default", "app", "config.yaml"⟩ World.init rfl
      (by decide)).1⟩

/-! ## Format: `strings.TrimPrefix(filepath.Ext(name), ".")` -/

theorem afterLast_of_not_mem (c : Char) (l : List Char) (h : c ∉ l) : afterLast c l = none := by
  induction l with
  | nil => rfl
  | cons x xs ih =>
    have hx : x ≠ c := fun e => h (by simp [e])
    have hxs : c ∉ xs := fun e => h (List.mem_cons_of_mem _ e)
    simp [afterLast, ih hxs, hx]

theorem afterLast_append_cons (c : Char) (q r : List Char) (h : c ∉ r) :
    afterLast c (q ++ c :: r) = some r := by
  induction q with
  | nil => simp [afterLast, afterLast_of_not_mem c r h]
  | cons x xs ih => simp [afterLast, ih]

theorem afterLast_append (c : Char) (q s : List Char) (h : c ∉ s) :
    afterLast c (q ++ s) = (afterLast c q).map (· ++ s) := by
  induction q with
  | nil => simp [afterLast, afterLast_of_not_mem c s h]
  | cons x xs ih =>
    simp only [List.cons_append, afterLast, List.append_eq]
    rw [ih]
    cases afterLast c xs with
    | some r => simp
    | none => by_cases hx : x = c <;> simp [hx]

/-- List form of `strings.TrimPrefix(s, ".")`. -/
theorem TrimPrefix_dot_data (s : String) :
    (TrimPrefix s ".").data = if ['.'].isPrefixOf s.data then s.data.drop 1 else s.data := by
  unfold TrimPrefix
  have hd : (".": String).data = ['.'] := rfl
  rw [hd]
  split <;> simp

theorem ExtLoop_snoc (q r : List Char) (x : Char) :
    ExtLoop (q ++ x :: r) (q.length + 1) =
      if x = '/' then [] else if x = '.' then x :: r else ExtLoop (q ++ x :: r) q.length := by
  have hx : (q ++ x :: r).getD q.length ' ' = x := by
    rw [List.getD_append_right q (x :: r) ' ' q.length (Nat.le_refl _)]
    simp
  simp only [ExtLoop, IsPathSeparator, hx, beq_iff_eq]
  simp

/-- Format computed by the code, on character lists, against the reading
"text after the last dot of the final path element". -/
theorem ExtLoop_spec (q r : List Char) (hdot : '.' ∉ r) (hsep : '/' ∉ r) :
    (if ['.'].isPrefixOf (ExtLoop (q ++ r) q.length) then (ExtLoop (q ++ r) q.length).drop 1
      else ExtLoop (q ++ r) q.length) =
    (afterLast '.' ((afterLast '/' (q ++ r)).getD (q ++ r))).getD [] := by
  induction q using List.reverseRecOn generalizing r with
  | nil =>
    simp [ExtLoop, afterLast_of_not_mem _ r hdot, afterLast_of_not_mem _ r hsep]
  | append_singleton q x ih =>
    have hl : (q ++ [x]).length = q.length + 1 := by simp
    have ha : q ++ [x] ++ r = q ++ x :: r := by simp
    rw [hl, ha, ExtLoop_snoc]
    by_cases h1 : x = '/'
    · subst h1
      simp [afterLast_append_cons _ q r hsep, afterLast_of_not_mem _ r hdot]
    · by_cases h2 : x = '.'
      · subst h2
        have hs : '/' ∉ '.' :: r := by simp [hsep]
        rw [afterLast_append _ q _ hs]
        cases afterLast '/' q with
        | none => simp [afterLast_append_cons _ q r hdot]
        | some b => simp [afterLast_append_cons _ b r hdot]
      · have hd1 : '.' ∉ x :: r := by
          simp only [List.mem_cons, not_or]
          exact ⟨fun e => h2 e.symm, hdot⟩
        have hs1 : '/' ∉ x :: r := by
          simp only [List.mem_cons, not_or]
          exact ⟨fun e => h1 e.symm, hsep⟩
        rw [if_neg h1, if_neg h2]
        exact ih (x :: r) hd1 hs1

theorem Format_eq (name : String) :
    TrimPrefix (Ext name) "." = textAfterLastDot (finalElement name) := by
  apply String.ext
  rw [TrimPrefix_dot_data]
  have h := ExtLoop_spec name.data [] (by simp) (by simp)
  simpa [Ext, textAfterLastDot, finalElement] using h

theorem afterLast_subset (c : Char) (l r : List Char) (h : afterLast c l = some r) :
    ∀ x ∈ r, x ∈ l := by
  induction l generalizing r with
  | nil => simp [afterLast] at h
  | cons y ys ih =>
    simp only [afterLast] at h
    cases hys : afterLast c ys with
    | some t =>
      rw [hys] at h
      have ht : t = r := by simpa using h
      intro x hx
      rw [← ht] at hx
      exact List.mem_cons_of_mem _ (ih t hys x hx)
    | none =>
      rw [hys] at h
      by_cases hy : y = c
      · have ht : ys = r := by simpa [hy] using h
        intro x hx
        rw [← ht] at hx
        exact List.mem_cons_of_mem _ hx
      · simp [hy] at h

theorem finalElement_of_no_slash (name : String) (h : '/' ∉ name.data) :
    finalElement name = name := by
  apply String.ext
  simp [finalElement, afterLast_of_not_mem _ _ h]

theorem textAfterLastDot_of_no_dot (name : String) (h : '.' ∉ name.data) :
    textAfterLastDot (finalElement name) = "" := by
  apply String.ext
  simp only [textAfterLastDot, finalElement]
  cases hs : afterLast '/' name.data with
  | none => simp [afterLast_of_not_mem _ _ h]
  | some r =>
    have hr : '.' ∉ r := fun hm => h (afterLast_subset _ _ _ hs _ hm)
    simp [afterLast_of_not_mem _ _ hr]

theorem ExtLoop_shape (path : List Char) (n : Nat) (h : n ≤ path.length) :
    ExtLoop path n = [] ∨ ∃ r, ExtLoop path n = '.' :: r := by
  induction n with
  | zero => exact Or.inl rfl
  | succ i ih =>
    have hi : i < path.length := h
    have hg : path.getD i ' ' = path.get ⟨i, hi⟩ := by
      simp [List.getD_eq_getElem?_getD, List.getElem?_eq_getElem hi]
    simp only [ExtLoop]
    split
    · exact Or.inl rfl
    · split
      · rename_i hdot
        right
        refine ⟨path.drop (i + 1), ?_⟩
        rw [List.drop_eq_getElem_cons hi]
        rw [hg, beq_iff_eq] at hdot
        simp only [List.get_eq_getElem] at hdot
        rw [hdot]
      · exact ih (Nat.le_of_lt hi)

/-- The extension is empty or is a dot followed by the format. -/
theorem Ext_shape (name : String) :
    (Ext name = "" ∧ TrimPrefix (Ext name) "." = "") ∨
    Ext name = "." ++ TrimPrefix (Ext name) "." := by
  rcases ExtLoop_shape name.data name.data.length (Nat.le_refl _) with h | ⟨r, h⟩
  · left
    have hE : (Ext name).data = [] := h
    have he : Ext name = "" := String.ext hE
    refine ⟨he, String.ext ?_⟩
    rw [TrimPrefix_dot_data, hE]
    rfl
  · right
    have hE : (Ext name).data = '.' :: r := h
    apply String.ext
    rw [String.data_append, TrimPrefix_dot_data, hE]
    have hd : (".": String).data = ['.'] := rfl
    rw [hd]
    simp

/-- C4 (as the code has it). The Format of the entry returned by a
successful `Load`, and by a `Next` whose receive completes, is the text after
the last dot of the final path element of the file name (the part after its
last slash, the whole name when it has no slash); it is the empty string
when the name contains no dot. -/
theorem Format_is_text_after_last_dot_of_final_element
    (s : source) (h : ConfigFile)
    (hget : s.client.GetConfigFile s.options.namespace_ s.options.fileGroup
      s.options.fileName = (some h, none))
    (w : ConfigWatcher) (W : World) (sent : Option ConfigFileChangeEvent)
    (event : ConfigFileChangeEvent) (hrecv : chanRecv W (w.recvChan W) sent = some event) :
    s.Load.out = .returned
      (some [⟨s.options.fileName, h.content.toUTF8,
        textAfterLastDot (finalElement s.options.fileName)⟩], none) ∧
    w.Next W sent = .returned
      (some [⟨w.configFile.fileName, event.NewValue.toUTF8,
        textAfterLastDot (finalElement w.configFile.fileName)⟩], none) ∧
    (∀ name : String, '/' ∉ name.data → finalElement name = name) ∧
    (∀ name : String, '.' ∉ name.data → textAfterLastDot (finalElement name) = "") := by
  refine ⟨?_, ?_, finalElement_of_no_slash, textAfterLastDot_of_no_dot⟩
  · simp [source.Load, hget, Format_eq]
  · simp [ConfigWatcher.Next, hrecv, Format_eq]

theorem Format_is_text_after_last_dot_of_final_element_witness :
    (source.Load ⟨anyFileClient, ⟨"default", "app", "conf.d/app.tar.gz", none⟩⟩).out =
      .returned (some [⟨"conf.d/app.tar.gz", "a: 1".toUTF8,
        textAfterLastDot (finalElement "conf.d/app.tar.gz")⟩], none) ∧
    finalElement "conf.d/app.tar.gz" = "app.tar.gz" ∧
    textAfterLastDot "app.tar.gz" = "gz" ∧
    exampleWatcher.Next exampleWorld (some exampleEvent) =
      .returned (some [⟨"config.yaml", "a: 2".toUTF8,
        textAfterLastDot (finalElement "config.yaml")⟩], none) :=
  have h := Format_is_text_after_last_dot_of_final_element
    ⟨anyFileClient, ⟨"default", "app", "conf.d/app.tar.gz", none⟩⟩
    ⟨"default", "app", "conf.d/app.tar.gz", "a: 1"⟩ rfl
    exampleWatcher exampleWorld (some exampleEvent) exampleEvent (by decide)
  ⟨h.1, by decide, by decide, h.2.1⟩

/-- C4 (as stated) fails: for the file name `conf.d/app` the last dot lies
before a slash, `Load` returns the empty Format, and the text after the last
dot of the name is `d/app`. -/
theorem Format_not_text_after_last_dot_of_name :
    (source.Load ⟨anyFileClient, ⟨"default", "app", "conf.d/app", none⟩⟩).out =
      .returned (some [⟨"conf.d/app", "a: 1".toUTF8, ""⟩], none) ∧
    textAfterLastDot "conf.d/app" = "d/app" :=
  ⟨rfl, by decide⟩

/-! ## Next -/

/-- C7. When the channel of the watcher's registry entry is open and a
change event `e` is handed over on it, `Next` returns a nil error and exactly
one entry: Key the file name of the watcher's handle, Value the bytes of
`e.NewValue`, Format the extension of that name without its leading dot (the
extension is empty, or a dot followed by the Format). -/
theorem Next_delivers_event (w : ConfigWatcher) (W : World) (ec : eventChan) (c : Nat)
    (e : ConfigFileChangeEvent)
    (hl : W.eventChanMap.lookup w.fullPath = some ec) (hev : ec.event = some c)
    (hopen : W.isClosed c = false) :
    w.Next W (some e) = .returned
      (some [⟨w.configFile.fileName, e.NewValue.toUTF8,
        TrimPrefix (Ext w.configFile.fileName) "."⟩], none) ∧
    ((Ext w.configFile.fileName = "" ∧ TrimPrefix (Ext w.configFile.fileName) "." = "") ∨
      Ext w.configFile.fileName = "." ++ TrimPrefix (Ext w.configFile.fileName) ".") := by
  refine ⟨?_, Ext_shape _⟩
  simp [ConfigWatcher.Next, ConfigWatcher.recvChan, chanRecv, index_of_lookup W _ _ hl, hev,
    hopen]

theorem Next_delivers_event_witness :
    exampleWatcher.Next exampleWorld (some exampleEvent) =
      .returned (some [⟨"config.yaml", "a: 2".toUTF8, "yaml"⟩], none) :=
  (Next_delivers_event exampleWatcher exampleWorld ⟨false, some 0⟩ 0 exampleEvent
    (by decide) rfl (by decide)).1

/-- C6. Once `Stop` has been called on a watcher made by `newConfigWatcher`,
then in every later state `Next` on any watcher made by `newConfigWatcher`
for the same File Identifier returns, whatever a sender offers: a nil error
and one entry with empty Value, Key and Format taken from that watcher's
file name. -/
theorem Next_after_Stop_returns (ops1 opsMid ops2 : List Op) (cf cf2 : ConfigFile)
    (w w2 : ConfigWatcher) (W1 Wany : World) (sent : Option ConfigFileChangeEvent)
    (hnew : newConfigWatcher (some cf) (run World.init ops1) = (.returned w, W1))
    (hnew2 : (newConfigWatcher (some cf2) Wany).1 = .returned w2)
    (hid : cf2.namespace_ = cf.namespace_ ∧ cf2.fileGroup = cf.fileGroup ∧
      cf2.fileName = cf.fileName) :
    w2.Next (run (w.Stop (run W1 opsMid)).2 ops2) sent =
      .returned (some [⟨cf2.fileName, ByteArray.empty,
        TrimPrefix (Ext cf2.fileName) "."⟩], none) := by
  have hw : w = ⟨cf, getFullPath cf.namespace_ cf.fileGroup cf.fileName⟩ := by
    have h := newConfigWatcher_returns cf (run World.init ops1)
    rw [hnew] at h
    exact Outcome.returned.inj h
  have hw2 : w2 = ⟨cf2, getFullPath cf.namespace_ cf.fileGroup cf.fileName⟩ := by
    rw [newConfigWatcher_returns, hid.1, hid.2.1, hid.2.2] at hnew2
    exact (Outcome.returned.inj hnew2).symm
  have hW1 : W1 = (newConfigWatcher (some cf) (run World.init ops1)).2 := by rw [hnew]
  obtain ⟨ec, hl⟩ := newConfigWatcher_entry cf (run World.init ops1)
  rw [← hW1] at hl
  have hinv : W1.Inv := by
    rw [hW1]
    exact Inv_newConfigWatcher cf _ (Inv_run ops1 _ Inv_init)
  obtain ⟨c, hec⟩ := Inv_entry W1 hinv _ ec hl
  rw [hec] at hl
  have hlm : (run W1 opsMid).eventChanMap.lookup w.fullPath = some ⟨false, some c⟩ := by
    rw [hw]
    exact run_lookup opsMid W1 _ _ hl
  have hcl := run_closed ops2 _ c (Stop_closes w _ c hlm)
  have hl3 : (run (w.Stop (run W1 opsMid)).2 ops2).eventChanMap.lookup w2.fullPath =
      some ⟨false, some c⟩ := by
    apply run_lookup
    rw [Stop_eventChanMap, hw2]
    rw [hw] at hlm
    exact hlm
  simp only [ConfigWatcher.Next, ConfigWatcher.recvChan, chanRecv, index_of_lookup _ _ _ hl3,
    World.isClosed, hcl, decide_True, if_true]
  rw [hw2]
  rfl

theorem Next_after_Stop_returns_witness :
    exampleWatcher.Next
        (run (exampleWatcher.Stop (run exampleWorld [.event exampleEvent])).2
          [.watch (some otherFile)]) none =
      .returned (some [⟨"config.yaml", ByteArray.empty, "yaml"⟩], none) :=
  Next_after_Stop_returns [] [.event exampleEvent] [.watch (some otherFile)] exampleFile
    exampleFile exampleWatcher exampleWatcher exampleWorld World.init none (by decide)
    (by decide) ⟨rfl, rfl, rfl⟩

/-! ## Routing -/

theorem getFullPath_data (n g f : String) :
    (getFullPath n g f).data = n.data ++ '/' :: (g.data ++ '/' :: f.data) := by
  have hd : ("/" : String).data = ['/'] := rfl
  simp [getFullPath, String.data_append, hd]

theorem append_cons_cancel (c : Char) (l1 l2 r1 r2 : List Char) (h1 : c ∉ l1) (h2 : c ∉ l2)
    (h : l1 ++ c :: r1 = l2 ++ c :: r2) : l1 = l2 ∧ r1 = r2 := by
  induction l1 generalizing l2 with
  | nil =>
    cases l2 with
    | nil => exact ⟨rfl, by simpa using h⟩
    | cons y ys =>
      exfalso
      have hy : c = y := by simpa using (List.cons.inj h).1
      exact h2 (by simp [hy])
  | cons x xs ih =>
    cases l2 with
    | nil =>
      exfalso
      have hx : x = c := by simpa using (List.cons.inj h).1
      exact h1 (by simp [hx])
    | cons y ys =>
      have hxy : x = y := (List.cons.inj h).1
      have ht : xs ++ c :: r1 = ys ++ c :: r2 := (List.cons.inj h).2
      have hxs : c ∉ xs := fun hm => h1 (List.mem_cons_of_mem _ hm)
      have hys : c ∉ ys := fun hm => h2 (List.mem_cons_of_mem _ hm)
      obtain ⟨e1, e2⟩ := ih ys hxs hys ht
      exact ⟨by rw [hxy, e1], e2⟩

theorem getFullPath_inj (n1 g1 f1 n2 g2 f2 : String)
    (hn1 : '/' ∉ n1.data) (hg1 : '/' ∉ g1.data) (hn2 : '/' ∉ n2.data) (hg2 : '/' ∉ g2.data)
    (h : getFullPath n1 g1 f1 = getFullPath n2 g2 f2) : n1 = n2 ∧ g1 = g2 ∧ f1 = f2 := by
  have hd : (getFullPath n1 g1 f1).data = (getFullPath n2 g2 f2).data := by rw [h]
  rw [getFullPath_data, getFullPath_data] at hd
  obtain ⟨e1, hr⟩ := append_cons_cancel _ _ _ _ _ hn1 hn2 hd
  obtain ⟨e2, e3⟩ := append_cons_cancel _ _ _ _ _ hg1 hg2 hr
  exact ⟨String.ext e1, String.ext e2, String.ext e3⟩

theorem run_watch_entry (ops : List Op) (W : World) (cf : ConfigFile)
    (h : Op.watch (some cf) ∈ ops) :
    ∃ ec, (run W ops).eventChanMap.lookup
      (getFullPath cf.namespace_ cf.fileGroup cf.fileName) = some ec := by
  induction ops generalizing W with
  | nil => simp at h
  | cons op rest ih =>
    rcases List.mem_cons.mp h with h1 | h1
    · obtain ⟨ec, hl⟩ := newConfigWatcher_entry cf W
      refine ⟨ec, ?_⟩
      rw [← h1]
      exact run_lookup rest _ _ _ hl
    · exact ih (step W op) h1

/-- C2 (as the code has it). For identifiers A and B whose namespaces and
file groups contain no slash, A different from B gives different registry
keys; and in every reachable state in which watchers for A and for B were
made by `newConfigWatcher`, `receive` of an event whose metadata is A runs its
send on the channel that `Next` of the watcher for A reads, which is not the
channel that `Next` of the watcher for B reads. -/
theorem events_reach_only_their_identifier (ops : List Op) (cfA cfB : ConfigFile)
    (e : ConfigFileChangeEvent) (wA wB : ConfigWatcher) (W1 W2 : World)
    (hA : Op.watch (some cfA) ∈ ops) (hB : Op.watch (some cfB) ∈ ops)
    (hwA : (newConfigWatcher (some cfA) W1).1 = .returned wA)
    (hwB : (newConfigWatcher (some cfB) W2).1 = .returned wB)
    (he : e.ConfigFileMetadata = some ⟨cfA.namespace_, cfA.fileGroup, cfA.fileName⟩)
    (hsA : '/' ∉ cfA.namespace_.data ∧ '/' ∉ cfA.fileGroup.data)
    (hsB : '/' ∉ cfB.namespace_.data ∧ '/' ∉ cfB.fileGroup.data)
    (hne : (cfA.namespace_, cfA.fileGroup, cfA.fileName) ≠
      (cfB.namespace_, cfB.fileGroup, cfB.fileName)) :
    getFullPath cfA.namespace_ cfA.fileGroup cfA.fileName ≠
      getFullPath cfB.namespace_ cfB.fileGroup cfB.fileName ∧
    ∃ c, (receive e (run World.init ops)).1.sendOperand = some (some c) ∧
      wA.recvChan (run World.init ops) = some c ∧
      wB.recvChan (run World.init ops) ≠ some c := by
  have hkey : getFullPath cfA.namespace_ cfA.fileGroup cfA.fileName ≠
      getFullPath cfB.namespace_ cfB.fileGroup cfB.fileName := by
    intro hk
    obtain ⟨e1, e2, e3⟩ := getFullPath_inj _ _ _ _ _ _ hsA.1 hsA.2 hsB.1 hsB.2 hk
    exact hne (by rw [e1, e2, e3])
  refine ⟨hkey, ?_⟩
  have hinv : (run World.init ops).Inv := Inv_run ops _ Inv_init
  obtain ⟨ecA, hlA⟩ := run_watch_entry ops World.init cfA hA
  obtain ⟨ecB, hlB⟩ := run_watch_entry ops World.init cfB hB
  obtain ⟨cA, hcA⟩ := Inv_entry _ hinv _ ecA hlA
  obtain ⟨cB, hcB⟩ := Inv_entry _ hinv _ ecB hlB
  have hcne : cB ≠ cA := by
    intro hc
    apply hkey
    apply hinv.2 _ _ ecA ecB hlA hlB
    rw [hcA, hcB, hc]
  rw [newConfigWatcher_returns] at hwA hwB
  have hwA1 := (Outcome.returned.inj hwA).symm
  have hwB1 := (Outcome.returned.inj hwB).symm
  rw [hcA] at hlA
  rw [hcB] at hlB
  refine ⟨cA, ?_, ?_, ?_⟩
  · by_cases hcl : (run World.init ops).isClosed cA = true
    · simp [receive, he, index_of_lookup _ _ _ hlA, hcl, ReceiveOutcome.sendOperand]
    · simp [receive, he, index_of_lookup _ _ _ hlA, hcl, ReceiveOutcome.sendOperand]
  · rw [hwA1]
    simp [ConfigWatcher.recvChan, index_of_lookup _ _ _ hlA]
  · rw [hwB1]
    simp [ConfigWatcher.recvChan, index_of_lookup _ _ _ hlB, hcne]

theorem events_reach_only_their_identifier_witness :
    getFullPath "default" "app" "config.yaml" ≠ getFullPath "default" "app" "other.json" ∧
    ∃ c, (receive exampleEvent
        (run World.init [.watch (some exampleFile), .watch (some otherFile)])).1.sendOperand
        = some (some c) ∧
      exampleWatcher.recvChan
        (run World.init [.watch (some exampleFile), .watch (some otherFile)]) = some c ∧
      ConfigWatcher.recvChan ⟨otherFile, "default/app/other.json"⟩
        (run World.init [.watch (some exampleFile), .watch (some otherFile)]) ≠ some c :=
  events_reach_only_their_identifier [.watch (some exampleFile), .watch (some otherFile)]
    exampleFile otherFile exampleEvent exampleWatcher ⟨otherFile, "default/app/other.json"⟩
    World.init World.init (by decide) (by decide) (by decide) (by decide) rfl
    ⟨by decide, by decide⟩ ⟨by decide, by decide⟩ (by decide)

/-- C2 (as stated) fails: the identifiers (`a/b`, `c`, `d`) and
(`a`, `b/c`, `d`) differ and have the same registry key `a/b/c/d`; with
watchers made for both, `receive` of an event of the first sends on channel 0,
the channel `Next` of the watcher for the second reads, and that `Next`
returns the event's content. -/
theorem distinct_identifiers_share_a_channel :
    (slashFileA.namespace_, slashFileA.fileGroup, slashFileA.fileName) ≠
      (slashFileB.namespace_, slashFileB.fileGroup, slashFileB.fileName) ∧
    getFullPath "a/b" "c" "d" = getFullPath "a" "b/c" "d" ∧
    (newConfigWatcher (some slashFileB)
        (run World.init [.watch (some slashFileA)])).1 = .returned ⟨slashFileB, "a/b/c/d"⟩ ∧
    receive slashEventA (run World.init [.watch (some slashFileA), .watch (some slashFileB)]) =
      (.sending 0, run World.init [.watch (some slashFileA), .watch (some slashFileB)]) ∧
    ConfigWatcher.recvChan ⟨slashFileB, "a/b/c/d"⟩
      (run World.init [.watch (some slashFileA), .watch (some slashFileB)]) = some 0 ∧
    ConfigWatcher.Next ⟨slashFileB, "a/b/c/d"⟩
        (run World.init [.watch (some slashFileA), .watch (some slashFileB)])
        (some slashEventA) =
      .returned (some [⟨"d", "new A".toUTF8, ""⟩], none) :=
  ⟨by decide, by decide, by decide, by decide, by decide, rfl⟩

end PolarisConfig
